import Mathlib

/-!
# Verification of the manga-metadata repository

Shallow embedding of `src/manga/metadata/common.py`, `fetch.py` and `update.py`
(package `manga.metadata`), together with proofs settling the claims about the
natural-language specification.

Modelling conventions:
* Python `dict` values stored in `Metadata._data` are either strings or `None`
  (`None` arises from `MangaUpdates._parse_single_section`), so a field value is
  `Value := Option String`.  A Python `dict` is an insertion-ordered list of
  key/value pairs with unique keys; it is embedded as an association list whose
  operations (`dictSet`, `dictGet`, `dictUpdate`) mirror item assignment, item
  lookup and `dict.update`.
* XML documents are modelled at the element-tree level: a `ComicInfo` document
  is its list of `(tag, text)` children.  On the write side,
  `ElementTree.tostring` produces the same self-closing tag for texts `None`
  and `""` (`serializeText`, used for byte-for-byte comparison of written
  entries).  On the read side, `fromstring` fails with `ParseError` when the
  document contains a character that is not an XML character, performs XML
  end-of-line normalization (`\r\n` and lone `\r` become `\n`), and reads a
  self-closing tag as text `None`; `parseBackText` captures the full
  write-then-reparse round for one child's text.  (`ElementTree.indent` only
  touches whitespace of the root element and the children's tails, which the
  parser in `Metadata.from_xml` never reads.)
* Character classes (`\s`, `\d`, `[a-z]`, `str.strip`, `str.lower`) are
  modelled over their ASCII meaning, via code points (`Char.toNat`).
-/

namespace Manga

/-- A Python value stored in `Metadata._data`: a string, or `None`. -/
abbrev Value := Option String

/-- A Python `dict` from strings to `Value`: insertion-ordered association
list with unique keys (uniqueness is `DictWF`). -/
abbrev Dict := List (String × Value)

/-- Python `d[k] = v`: replace the value at the first occurrence of `k`,
keeping its position, otherwise append the new pair. -/
def dictSet : Dict → String → Value → Dict
  | [], k, v => [(k, v)]
  | (k', v') :: rest, k, v =>
      if k' = k then (k', v) :: rest else (k', v') :: dictSet rest k v

/-- Python `d[k]` / `k in d`: first-match lookup (`none` = `KeyError`). -/
def dictGet : Dict → String → Option Value
  | [], _ => none
  | (k', v') :: rest, k => if k' = k then some v' else dictGet rest k

/-- Python `d.update(other)`: assign every item of `other` into `d`, in
`other`'s iteration order. -/
def dictUpdate (d other : Dict) : Dict :=
  other.foldl (fun acc kv => dictSet acc kv.1 kv.2) d

/-- Key uniqueness: the invariant every real Python `dict` satisfies. -/
def DictWF (d : Dict) : Prop := (d.map Prod.fst).Nodup

instance (d : Dict) : Decidable (DictWF d) :=
  inferInstanceAs (Decidable ((d.map Prod.fst).Nodup))

/-- `Metadata.COMIC_INFO_KEY_ORDER` from `common.py`. -/
def COMIC_INFO_KEY_ORDER : List String := [
    "Title", "Series", "Number", "Count", "Volume",
    "AlternateSeries", "AlternateNumber", "AlternateCount",
    "Summary", "Notes", "Year", "Month", "Day",
    "Writer", "Penciller", "Inker", "Colorist", "Letterer", "CoverArtist", "Editor", "Publisher",
    "Imprint", "Genre", "Web", "PageCount", "LanguageISO", "Format", "BlackAndWhite", "Manga",
    "Characters", "Teams", "Locations", "ScanInformation", "StoryArc", "SeriesGroup", "AgeRating",
    "Pages", "CommunityRating", "MainCharacterOrTeam", "Review"
  ]

/-- The `Metadata` record: a wrapper around its `_data` dict. -/
structure Metadata where
  data : Dict
deriving DecidableEq

/-- The dict literal `'Manga': 'Yes', 'Notes': '\x7b\x7d'` installed by
`Metadata.__init__` before `data` is merged in. -/
def defaultData : Dict := [("Manga", some "Yes"), ("Notes", some "\x7b\x7d")]

/-- `Metadata.__init__(data)`: defaults first, then `self._data.update(data)`. -/
def Metadata.init (data : Dict) : Metadata := ⟨dictUpdate defaultData data⟩

/-- `Metadata.__getitem__` (`none` models the `KeyError` raised on an unset key). -/
def Metadata.getItem (m : Metadata) (k : String) : Option Value := dictGet m.data k

/-- `Metadata.__setitem__`. -/
def Metadata.setItem (m : Metadata) (k : String) (v : Value) : Metadata :=
  ⟨dictSet m.data k v⟩

/-- `Metadata.update(other)`: `self._data.update(other._data)`. -/
def Metadata.update (m other : Metadata) : Metadata := ⟨dictUpdate m.data other.data⟩

/-- `Metadata.copy()`: `Metadata(data = dict(self._data))`, i.e. a fresh record
built through `__init__` from a copy of the current items. -/
def Metadata.copy (m : Metadata) : Metadata := Metadata.init m.data

/-- `Metadata.to_xml`, at tree level: the children appended under the
`ComicInfo` root by the `for key in COMIC_INFO_KEY_ORDER` loop. -/
def Metadata.to_xml (m : Metadata) : List (String × Value) :=
  COMIC_INFO_KEY_ORDER.foldl
    (fun acc k =>
      match dictGet m.data k with
      | none => acc
      | some v => acc ++ [(k, v)])
    []

/-- The write side only: `ElementTree.tostring` emits the same self-closing
tag for a child whose text is `None` as for one whose text is `""`, so the
bytes written for a child depend exactly on this collapsed text.  Used to
compare written metadata entries byte-for-byte (`writeXmlEntry`). -/
def serializeText : Value → Value
  | none => none
  | some s => if s = "" then none else some s

/-- One child element as it is written (tag, collapsed text). -/
def serializeChild (c : String × Value) : String × Value := (c.1, serializeText c.2)

/-- `Metadata.from_xml`, at tree level: `data[child.tag] = child.text` over the
document's children, then `Metadata(data)`. -/
def Metadata.from_xml (children : List (String × Value)) : Metadata :=
  Metadata.init (children.foldl (fun acc c => dictSet acc c.1 c.2) [])

/-- Is `c` an XML 1.0 character?  Code points 0–8, 11, 12, 14–31 and
U+FFFE/U+FFFF are not XML characters; `tostring` writes them raw and the
reparse then fails with `ParseError`.  (Lone surrogates cannot occur in a
scalar-value string and are out of scope.) -/
def xmlCharOk (c : Char) : Bool :=
  c.toNat = 9 || c.toNat = 10 || c.toNat = 13 ||
  (32 ≤ c.toNat && !(c.toNat = 65534) && !(c.toNat = 65535))

/-- XML end-of-line normalization performed by the parser on reading:
`\r\n` and lone `\r` both become `\n`. -/
def normalizeEol : List Char → List Char
  | [] => []
  | [c] => if c.toNat = 13 then ['\n'] else [c]
  | c1 :: c2 :: rest =>
      if c1.toNat = 13 then
        if c2.toNat = 10 then '\n' :: normalizeEol rest
        else '\n' :: normalizeEol (c2 :: rest)
      else c1 :: normalizeEol (c2 :: rest)

/-- Effect of `ElementTree.tostring` followed by `fromstring` on one child's
text: a text containing a non-XML character makes the whole document fail to
parse (`none`); text `None` or `""` is written as a self-closing tag and
reads back as `None`; every other text survives up to end-of-line
normalization. -/
def parseBackText : Value → Option Value
  | none => some none
  | some s =>
      if s.data.all xmlCharOk then
        if s = "" then some none else some (some ⟨normalizeEol s.data⟩)
      else none

/-- Serialize-then-reparse across a child list; a single invalid text makes
the whole document unparseable. -/
def roundTripChildren : List (String × Value) → Option (List (String × Value))
  | [] => some []
  | c :: rest =>
      match parseBackText c.2 with
      | none => none
      | some v =>
          match roundTripChildren rest with
          | none => none
          | some l => some ((c.1, v) :: l)

/-- A field value the XML round trip preserves unchanged: `None`, or a
nonempty string of XML characters containing no carriage return. -/
def valueOk : Value → Bool
  | none => true
  | some s => !s.data.isEmpty && s.data.all (fun c => xmlCharOk c && !(c.toNat = 13))

/-- `Metadata.from_xml` applied to the reparse of `metadata.to_xml()`'s
serialization; `none` when the serialized document does not parse back
(`ParseError`). -/
def xmlRoundTrip (m : Metadata) : Option Metadata :=
  (roundTripChildren m.to_xml).map Metadata.from_xml

/-! ## Character classes and Python string helpers (ASCII) -/

/-- `\d` on ASCII: code points 48–57. -/
def isDigitB (c : Char) : Bool := 48 ≤ c.toNat && c.toNat ≤ 57

/-- `[a-z]`: code points 97–122. -/
def isLowerB (c : Char) : Bool := 97 ≤ c.toNat && c.toNat ≤ 122

/-- `\s` / `str.strip` whitespace on ASCII: space, tab, LF, CR, VT, FF. -/
def isWsB (c : Char) : Bool :=
  c.toNat = 32 || c.toNat = 9 || c.toNat = 10 || c.toNat = 13 ||
  c.toNat = 11 || c.toNat = 12

/-- `str.strip()` on a character list. -/
def stripList (l : List Char) : List Char :=
  ((l.dropWhile isWsB).reverse.dropWhile isWsB).reverse

/-- `str.strip()`. -/
def pyStrip (s : String) : String := ⟨stripList s.data⟩

/-- `str.lower()` (ASCII letters). -/
def pyLower (s : String) : String := ⟨s.data.map Char.toLower⟩

/-- Value of a nonempty ASCII digit string, as read by Python `int`. -/
def digitsToNat (l : List Char) : ℕ := l.foldl (fun acc c => 10 * acc + (c.toNat - 48)) 0

/-! ## Similarity ranking (`fetch.py`) -/

/-- One search result `(id, title, description)` as returned by
`MangaUpdates.search`. -/
structure Candidate where
  id : String
  title : String
  description : String
deriving DecidableEq

/-- Longest-common-subsequence length with a structural fuel argument
(`fuel = |xs| + |ys|` always suffices, since every step consumes one unit of
fuel and at least one list element). -/
def lcsFuel : ℕ → List Char → List Char → ℕ
  | 0, _, _ => 0
  | _ + 1, [], _ => 0
  | _ + 1, _ :: _, [] => 0
  | n + 1, a :: as, b :: bs =>
      if a = b then lcsFuel n as bs + 1
      else max (lcsFuel n (a :: as) bs) (lcsFuel n as (b :: bs))

/-- Longest-common-subsequence length. -/
def lcsLen (xs ys : List Char) : ℕ := lcsFuel (xs.length + ys.length) xs ys

/-- `Levenshtein.ratio(a, b)` as an exact rational: the normalized indel
similarity `1 - indel_distance/(|a|+|b|) = 2*LCS(a,b)/(|a|+|b|)`, and `1`
when both strings are empty. -/
def simScore (a b : String) : ℚ :=
  if a.data.length + b.data.length = 0 then 1
  else mkRat (2 * lcsLen a.data b.data) (a.data.length + b.data.length)

/-- Code-point comparison of strings, as Python `<`/`>` on `str`. -/
def cmpChars : List Char → List Char → Ordering
  | [], [] => .eq
  | [], _ :: _ => .lt
  | _ :: _, [] => .gt
  | a :: as, b :: bs =>
      if a.toNat < b.toNat then .lt
      else if b.toNat < a.toNat then .gt
      else cmpChars as bs

/-- String comparison. -/
def cmpStr (a b : String) : Ordering := cmpChars a.data b.data

/-- Rational comparison. -/
def cmpQ (a b : ℚ) : Ordering := if a < b then .lt else if b < a then .gt else .eq

/-- Lexicographic combination: the second comparison breaks the first's ties. -/
def ordThen (o₁ o₂ : Ordering) : Ordering :=
  match o₁ with
  | .eq => o₂
  | o => o

/-- Lexicographic comparison of pairs from component comparisons. -/
def pairCmp {α β : Type} (ca : α → α → Ordering) (cb : β → β → Ordering)
    (u v : α × β) : Ordering :=
  ordThen (ca u.1 v.1) (cb u.2 v.2)

/-- The tuple `(sim_score, (id, title, description))` that `_pick_result`
sorts, reshaped into nested pairs. -/
def sortKey (x : ℚ × Candidate) : ℚ × (String × (String × String)) :=
  (x.1, (x.2.id, (x.2.title, x.2.description)))

/-- Python's comparison of the tuples `(sim_score, (id, title, description))`
that `_pick_result` sorts: lexicographic, floats then strings. -/
def cmpKey (x y : ℚ × Candidate) : Ordering :=
  pairCmp cmpQ (pairCmp cmpStr (pairCmp cmpStr cmpStr)) (sortKey x) (sortKey y)

/-- `x` may precede `y` in the output of `list.sort(reverse = True)`:
`x` is not strictly smaller than `y` under the tuple comparison. -/
def keyGe (x y : ℚ × Candidate) : Prop := cmpKey x y ≠ .lt

/-- The laws a strict three-way comparison satisfies: `.eq` exactly on equal
arguments, swap antisymmetry, and transitivity of `.lt`. -/
structure CmpLaws {α : Type} (cmp : α → α → Ordering) : Prop where
  eq_iff : ∀ a b, cmp a b = .eq ↔ a = b
  swap_eq : ∀ a b, (cmp a b).swap = cmp b a
  lt_trans : ∀ a b c, cmp a b = .lt → cmp b c = .lt → cmp a c = .lt

instance : DecidableRel keyGe :=
  fun x y => inferInstanceAs (Decidable (cmpKey x y ≠ .lt))

/-- The scored list `[(Levenshtein.ratio(name.lower(), title.lower()), result)]`
built by `_pick_result`, for an arbitrary score function. -/
def scoredResults (score : String → String → ℚ) (name : String)
    (results : List Candidate) : List (ℚ × Candidate) :=
  results.map (fun r => (score (pyLower name) (pyLower r.title), r))

/-- `sim_results.sort(reverse = True)`: the descending sort of the scored
pairs.  (Python's sort is stable, but the sort keys here are the whole
`(score, candidate)` tuples, so equal keys are identical elements and the
sorted permutation is unique; any sorted permutation is Python's output.) -/
def rankResults (score : String → String → ℚ) (name : String)
    (results : List Candidate) : List (ℚ × Candidate) :=
  List.insertionSort keyGe (scoredResults score name results)

/-! ## The interactive prompt (`common.get_int`) and selection -/

/-- One event on standard input: a line of text, or `EOFError`/
`KeyboardInterrupt`.  Running out of events is end-of-input (`EOFError`). -/
inductive InputEvent where
  | interrupt
  | text (s : String)
deriving DecidableEq

/-- Does the stripped text match `^\s*-?\d+\s*$`? -/
def isIntLiteral (t : String) : Bool :=
  let l := t.data.dropWhile isWsB
  let core := ((l.reverse.dropWhile isWsB).reverse)
  let digits := match core with
    | '-' :: rest => rest
    | l' => l'
  !digits.isEmpty && digits.all isDigitB

/-- Python `int(text)` on a string matching `^\s*-?\d+\s*$`. -/
def pyInt (t : String) : Int :=
  let core := stripList t.data
  match core with
  | '-' :: rest => -(digitsToNat rest : Int)
  | l => (digitsToNat l : Int)

/-- `common.get_int(lower, upper, prompt)` driven by a list of input events:
re-prompts (recurses) on empty, non-integer and out-of-bounds input, returns
`none` on quit/EOF/interrupt, and returns the value once
`lower <= value <= upper` (both bounds inclusive). -/
def getInt (lower upper : Int) : List InputEvent → Option Int
  | [] => none
  | .interrupt :: _ => none
  | .text s :: rest =>
      let t := pyStrip s
      if t = "" then getInt lower upper rest
      else if pyLower t = "q" ∨ pyLower t = "quit" then none
      else if ¬ isIntLiteral t then getInt lower upper rest
      else
        let v := pyInt t
        if v < lower ∨ v > upper then getInt lower upper rest
        else some v

/-- Result of `_pick_result`: a chosen `(id, title)`, a cancelled selection
(`(None, None)`), or an uncaught `IndexError` from `sim_results[index]`. -/
inductive PickOutcome where
  | picked (id title : String)
  | cancelled
  | indexError
deriving DecidableEq

/-- `fetch._pick_result(name, results, use_first)` with interactive input
modelled by `inputs`. -/
def pickResult (name : String) (results : List Candidate) (useFirst : Bool)
    (inputs : List InputEvent) : PickOutcome :=
  if results.length = 1 then
    match results with
    | r :: _ => .picked r.id r.title
    | [] => .indexError
  else
    let sim := rankResults simScore name results
    if useFirst then
      match sim with
      | [] => .indexError
      | top :: _ => .picked top.2.id top.2.title
    else
      match getInt 0 (sim.length : Int) inputs with
      | none => .cancelled
      | some i =>
          match sim.get? i.toNat with
          | some x => .picked x.2.id x.2.title
          | none => .indexError

/-! ## Archives (`zipfile`) and the metadata rewrite -/

/-- `METADATA_FILENAME` from `common.py`. -/
def METADATA_FILENAME : String := "ComicInfo.xml"

/-- Contents of one archive member: opaque bytes, or a `ComicInfo` XML
document modelled at tree level (see the header comment). -/
inductive FileData where
  | raw (s : String)
  | xml (children : List (String × Value))
deriving DecidableEq

/-- One archive member: `(filename, contents)`. -/
abbrev Member := String × FileData

/-- Is `needle` a prefix of `hay`? -/
def isPrefixB : List Char → List Char → Bool
  | [], _ => true
  | _ :: _, [] => false
  | a :: as, b :: bs => a = b && isPrefixB as bs

/-- Is `needle` a contiguous substring of `hay`? -/
def isSubstringB (needle : List Char) : List Char → Bool
  | [] => isPrefixB needle []
  | b :: bs => isPrefixB needle (b :: bs) || isSubstringB needle bs

/-- `re.search(METADATA_FILENAME_REGEX, filename)`: the pattern
`ComicInfo\.xml` is a literal, searched anywhere in the member name. -/
def nameMatchesMetadataRegex (filename : String) : Bool :=
  isSubstringB METADATA_FILENAME.data filename.data

/-- The members `remove_from_zipfile` copies into the rebuilt archive: those
whose names do NOT match the metadata regex. -/
def keptMembers (ar : List Member) : List Member :=
  ar.filter (fun m => !(nameMatchesMetadataRegex m.1))

/-- The serialized metadata entry written by `update` (tree level, with the
reparse normalization of `serializeText` applied child-wise). -/
def writeXmlEntry (m : Metadata) : FileData :=
  .xml ((m.to_xml).map serializeChild)

/-- `Metadata.from_cbz`: look up the exact member `ComicInfo.xml`
(`archive.getinfo`); absent → fresh record and `False`; an XML member →
parsed record and `True`; a non-XML member → `none`, modelling the
`ElementTree.fromstring` exception propagating out. -/
def pyFromCbz (ar : List Member) : Option (Metadata × Bool) :=
  match ar.find? (fun m => m.1 == METADATA_FILENAME) with
  | none => some (Metadata.init [], false)
  | some (_, .xml ch) => some (Metadata.from_xml ch, true)
  | some (_, .raw _) => none

/-- State of the file at the archive's original path.  `partialCopy` and
`partialAppend` stand for the whole family of partially-written byte states
the path passes through while `shutil.move` falls back to a cross-filesystem
copy, respectively while `ZipFile(path, 'a')` rewrites the file in place
(appending the new entry over the old central directory before writing the
new one); none of those byte states is a readable zip archive. -/
inductive FileState where
  | zipFile (members : List Member)
  | partialCopy (members : List Member)
  | partialAppend (members : List Member) (entry : Member)
deriving DecidableEq

/-- Filesystem snapshot during the metadata rewrite: the file at the
original path, and the temporary archive (inside the `TemporaryDirectory`)
when it exists. -/
structure FsState where
  original : FileState
  temp : Option (List Member)
deriving DecidableEq

/-- The successive filesystem states of the commit step
(`remove_metadata_from_zipfile(path)` followed by the `ZipFile(path, 'a')`
append): the initial state; one state per member written into the temporary
archive (the original untouched throughout); the `shutil.move` of the
temporary archive over the original path — one rename when the temporary
directory and the archive share a filesystem (`crossDevice = false`),
otherwise a copy passing through a partially-written original followed by
removal of the source; and the in-place append of the new `ComicInfo.xml`
entry, which passes through a partially-written state of the original path
before the final archive exists. -/
def commitStates (ar : List Member) (entry : FileData) (crossDevice : Bool) :
    List FsState :=
  let kept := keptMembers ar
  (⟨.zipFile ar, none⟩ ::
    (List.range (kept.length + 1)).map (fun j => ⟨.zipFile ar, some (kept.take j)⟩))
  ++ (if crossDevice then
        [⟨.partialCopy kept, some kept⟩, ⟨.zipFile kept, some kept⟩,
         ⟨.zipFile kept, none⟩]
      else [⟨.zipFile kept, none⟩])
  ++ [⟨.partialAppend kept (METADATA_FILENAME, entry), none⟩,
      ⟨.zipFile (kept ++ [(METADATA_FILENAME, entry)]), none⟩]

/-! ## `update.py` -/

/-- The `(seriesName, volume, chapter)` key derived from an archive filename. -/
structure ArchiveKey where
  name : String
  volume : String
  chapter : String
deriving DecidableEq

/-- Take one leading `[a-z]` character, if present (the optional trailing
letter of the chapter group, seen from the reversed end of the name). -/
def popLower : List Char → List Char × List Char
  | [] => ([], [])
  | c :: rest => if isLowerB c then ([c], rest) else ([], c :: rest)

/-- `re.match(r'^(.+)\s+v(\d+)\s+c(\d+[a-z]?)\.cbz$', basename)` together with
the group post-processing of `update.update` (`group(1).strip()`,
`str(int(group(2)))`, `group(3)`), implemented as the deterministic
right-to-left reading of the pattern: the fixed suffix `.cbz`, the optional
trailing letter, then maximal runs of digits / whitespace with literal `c`
and `v` separators pin every group, and the greedy `(.+)` (which excludes
newlines) is everything before the final whitespace run. -/
def parseCbzName (l : List Char) : Option ArchiveKey :=
  match l.reverse with
  | 'z' :: 'b' :: 'c' :: '.' :: r1 =>
    let lo := (popLower r1).1
    let r2 := (popLower r1).2
    let cdRev := r2.takeWhile isDigitB
    let r3 := r2.dropWhile isDigitB
    if cdRev.isEmpty then none
    else
      match r3 with
      | 'c' :: r4 =>
        let w1 := r4.takeWhile isWsB
        let r5 := r4.dropWhile isWsB
        if w1.isEmpty then none
        else
          let vdRev := r5.takeWhile isDigitB
          let r6 := r5.dropWhile isDigitB
          if vdRev.isEmpty then none
          else
            match r6 with
            | 'v' :: r7 =>
              let w2 := r7.takeWhile isWsB
              let r8 := r7.dropWhile isWsB
              if w2.isEmpty then none
              else if r8.isEmpty then none
              else if r8.any (fun c => c.toNat = 10) then none
              else
                some ⟨⟨stripList r8.reverse⟩,
                      Nat.repr (digitsToNat vdRev.reverse),
                      ⟨cdRev.reverse ++ lo⟩⟩
            | _ => none
      | _ => none
  | _ => none

/-- Key extraction in `update.update`:
`re.match(..., os.path.basename(path).strip())` plus group post-processing
(the argument is the archive path's basename). -/
def parseArchiveKey (basename : String) : Option ArchiveKey :=
  parseCbzName (stripList basename.data)

/-- Modelled from the spec: the fetch step `search → select →
fetch-full-record` that `update.update` invokes as
`manga.metadata.fetch.fetch(name, cache_dir, use_first)`, expecting the
fetched record on success and `None` on failure (zero search candidates,
cancelled selection, or fetch error).  No implementation with this interface
exists under `src/` — `fetch.py` defines a one-parameter CLI entry point
`fetch(config)` returning exit codes — so the step's outcome is taken as an
abstract input, per the spec's contract. -/
def FetchOutcome := Option Metadata

/-- `update.update(path, args)`: exit code and resulting archive, or `none`
for an uncaught exception.  `archive` is the file at `path` (`none` = no file),
`basename` is `os.path.basename(path)`, and `fetchResult` the outcome of the
fetch step (see `FetchOutcome`). -/
def update (archive : Option (List Member)) (basename : String)
    (noClobber : Bool) (fetchResult : FetchOutcome) :
    Option (ℕ × Option (List Member)) :=
  match archive with
  | none => some (1, none)
  | some ar =>
    match parseArchiveKey basename with
    | none => some (1, some ar)
    | some key =>
      match pyFromCbz ar with
      | none => none
      | some (old, present) =>
        if present && noClobber then some (0, some ar)
        else
          match fetchResult with
          | none => some (1, some ar)
          | some fetched =>
            let merged := old.update fetched
            let newMeta :=
              ((merged.copy).setItem "Volume" (some key.volume)).setItem
                "Number" (some key.chapter)
            some (0, some (keptMembers ar ++
              [(METADATA_FILENAME, writeXmlEntry newMeta)]))

/-- One item of a batch run: the archive, its basename, and the outcome the
fetch step would produce for it. -/
structure BatchItem where
  archive : Option (List Member)
  basename : String
  fetchResult : FetchOutcome

/-- `update.main(args)`: process every path in order, summing exit statuses
(an uncaught exception — `none` from `update` — aborts the batch). -/
def mainBatch (noClobber : Bool) :
    List BatchItem → Option (ℕ × List (ℕ × Option (List Member)))
  | [] => some (0, [])
  | item :: rest =>
    match update item.archive item.basename noClobber item.fetchResult with
    | none => none
    | some (c, fin) =>
      match mainBatch noClobber rest with
      | none => none
      | some (s, outs) => some (c + s, (c, fin) :: outs)

/-! ## Dictionary lemmas -/

theorem dictGet_dictSet_self (d : Dict) (k : String) (v : Value) :
    dictGet (dictSet d k v) k = some v := by
  induction d with
  | nil => simp [dictSet, dictGet]
  | cons p rest ih =>
    by_cases h : p.1 = k
    · simp [dictSet, dictGet, h]
    · simp [dictSet, dictGet, h, ih]

theorem dictGet_dictSet_ne (d : Dict) (k : String) (v : Value) (k' : String)
    (h : k' ≠ k) : dictGet (dictSet d k v) k' = dictGet d k' := by
  have h' : k ≠ k' := Ne.symm h
  induction d with
  | nil => simp [dictSet, dictGet, h']
  | cons p rest ih =>
    by_cases hk : p.1 = k
    · subst hk
      have hp : p.1 ≠ k' := h'
      simp [dictSet, dictGet, hp]
    · simp only [dictSet, if_neg hk]
      by_cases hk' : p.1 = k'
      · simp [dictGet, hk']
      · simp [dictGet, hk', ih]

theorem map_fst_dictSet (d : Dict) (k : String) (v : Value) :
    (dictSet d k v).map Prod.fst =
      if k ∈ d.map Prod.fst then d.map Prod.fst else d.map Prod.fst ++ [k] := by
  induction d with
  | nil => simp [dictSet]
  | cons p rest ih =>
    by_cases h : p.1 = k
    · simp [dictSet, h]
    · have h' : ¬ (k = p.1) := fun hh => h hh.symm
      simp only [dictSet, if_neg h, List.map_cons, ih, List.mem_cons]
      by_cases hm : k ∈ rest.map Prod.fst
      · simp [hm, h']
      · simp [hm, h']

theorem DictWF_dictSet (d : Dict) (k : String) (v : Value) (h : DictWF d) :
    DictWF (dictSet d k v) := by
  unfold DictWF at *
  rw [map_fst_dictSet]
  by_cases hm : k ∈ d.map Prod.fst
  · simpa [hm]
  · simpa [hm, List.nodup_append] using h

theorem dictGet_eq_none_iff (d : Dict) (k : String) :
    dictGet d k = none ↔ k ∉ d.map Prod.fst := by
  induction d with
  | nil => simp [dictGet]
  | cons p rest ih =>
    by_cases h : p.1 = k
    · subst h
      simp [dictGet]
    · have h' : ¬ (k = p.1) := fun hh => h hh.symm
      simp [dictGet, h, ih, h']

theorem dictGet_foldl_not_mem (l : Dict) (d : Dict) (k : String)
    (h : dictGet l k = none) :
    dictGet (l.foldl (fun acc c => dictSet acc c.1 c.2) d) k = dictGet d k := by
  induction l generalizing d with
  | nil => simp
  | cons c rest ih =>
    simp only [dictGet] at h
    by_cases hc : c.1 = k
    · simp [hc] at h
    · simp only [if_neg hc] at h
      simp only [List.foldl_cons]
      rw [ih _ h, dictGet_dictSet_ne _ _ _ _ (fun hh => hc hh.symm)]

theorem dictGet_foldl_mem (l : Dict) (d : Dict) (k : String) (v : Value)
    (hnd : (l.map Prod.fst).Nodup) (h : dictGet l k = some v) :
    dictGet (l.foldl (fun acc c => dictSet acc c.1 c.2) d) k = some v := by
  induction l generalizing d with
  | nil => simp [dictGet] at h
  | cons c rest ih =>
    simp only [List.map_cons, List.nodup_cons] at hnd
    simp only [dictGet] at h
    by_cases hc : c.1 = k
    · subst hc
      rw [if_pos rfl] at h
      have hv2 : c.2 = v := Option.some.inj h
      have hrest : dictGet rest c.1 = none :=
        (dictGet_eq_none_iff rest c.1).mpr hnd.1
      simp only [List.foldl_cons]
      rw [dictGet_foldl_not_mem _ _ _ hrest, dictGet_dictSet_self, hv2]
    · simp only [if_neg hc] at h
      simp only [List.foldl_cons]
      exact ih _ hnd.2 h

theorem dictGet_dictUpdate_of_mem (d o : Dict) (k : String) (v : Value)
    (hnd : DictWF o) (h : dictGet o k = some v) :
    dictGet (dictUpdate d o) k = some v :=
  dictGet_foldl_mem o d k v hnd h

theorem dictGet_dictUpdate_of_not_mem (d o : Dict) (k : String)
    (h : dictGet o k = none) :
    dictGet (dictUpdate d o) k = dictGet d k :=
  dictGet_foldl_not_mem o d k h

theorem DictWF_foldl_dictSet (l : Dict) (d : Dict) (h : DictWF d) :
    DictWF (l.foldl (fun acc c => dictSet acc c.1 c.2) d) := by
  induction l generalizing d with
  | nil => simpa
  | cons c rest ih => exact ih _ (DictWF_dictSet _ _ _ h)

theorem dictGet_buildDict (l : Dict) (k : String)
    (hnd : (l.map Prod.fst).Nodup) :
    dictGet (l.foldl (fun acc c => dictSet acc c.1 c.2) []) k = dictGet l k := by
  match hv : dictGet l k with
  | some v => exact dictGet_foldl_mem l [] k v hnd hv
  | none => rw [dictGet_foldl_not_mem l [] k hv]; simp [dictGet]

/-! ## XML serialization lemmas -/

theorem foldl_xml_children (f : String → Option Value) (l : List String)
    (init : List (String × Value)) :
    l.foldl
      (fun acc k =>
        match f k with
        | none => acc
        | some v => acc ++ [(k, v)])
      init
    = init ++ l.filterMap (fun k => (f k).map (fun v => (k, v))) := by
  induction l generalizing init with
  | nil => simp
  | cons k rest ih =>
    simp only [List.foldl_cons, List.filterMap_cons]
    rcases hv : f k with _ | v
    · simp only [hv, Option.map_none']
      rw [ih]
    · simp only [hv, Option.map_some']
      rw [ih]
      simp

theorem to_xml_eq_filterMap (m : Metadata) :
    m.to_xml = COMIC_INFO_KEY_ORDER.filterMap
      (fun k => (dictGet m.data k).map (fun v => (k, v))) := by
  unfold Metadata.to_xml
  rw [foldl_xml_children]
  simp

theorem map_fst_filterMap_keyed (f : String → Option Value) (l : List String) :
    (l.filterMap (fun k => (f k).map (fun v => (k, v)))).map Prod.fst
      = l.filter (fun k => (f k).isSome) := by
  induction l with
  | nil => simp
  | cons k rest ih =>
    simp only [List.filterMap_cons, List.filter_cons]
    match hv : f k with
    | none => simpa [hv] using ih
    | some v => simpa [hv] using ih

theorem map_fst_to_xml (m : Metadata) :
    (m.to_xml).map Prod.fst
      = COMIC_INFO_KEY_ORDER.filter (fun k => (dictGet m.data k).isSome) := by
  rw [to_xml_eq_filterMap, map_fst_filterMap_keyed]

theorem mem_to_xml_iff (m : Metadata) (k : String) (v : Value) :
    (k, v) ∈ m.to_xml ↔ k ∈ COMIC_INFO_KEY_ORDER ∧ dictGet m.data k = some v := by
  rw [to_xml_eq_filterMap]
  constructor
  · intro h
    obtain ⟨k', hk', hv'⟩ := List.mem_filterMap.mp h
    rcases hg : dictGet m.data k' with _ | v'
    · rw [hg] at hv'
      simp at hv'
    · rw [hg] at hv'
      simp only [Option.map_some', Option.some.injEq, Prod.mk.injEq] at hv'
      obtain ⟨rfl, rfl⟩ := hv'
      exact ⟨hk', hg⟩
  · rintro ⟨hk, hg⟩
    exact List.mem_filterMap.mpr ⟨k, hk, by rw [hg]; rfl⟩

theorem nodup_key_order : COMIC_INFO_KEY_ORDER.Nodup := by decide

theorem dictGet_map_serializeChild (ch : List (String × Value)) (k : String) :
    dictGet (ch.map serializeChild) k = (dictGet ch k).map serializeText := by
  induction ch with
  | nil => simp [dictGet]
  | cons c rest ih =>
    by_cases h : c.1 = k
    · simp [dictGet, serializeChild, h]
    · simp [dictGet, serializeChild, h, ih]

theorem dictGet_filterMap_not_mem (f : String → Option Value) (l : List String)
    (k : String) (h : k ∉ l) :
    dictGet (l.filterMap (fun k' => (f k').map (fun v => (k', v)))) k = none := by
  induction l with
  | nil => simp [dictGet]
  | cons k' rest ih =>
    simp only [List.mem_cons, not_or] at h
    simp only [List.filterMap_cons]
    rcases hv : f k' with _ | v
    · simp only [hv, Option.map_none']
      exact ih h.2
    · have hne : k' ≠ k := fun hh => h.1 hh.symm
      simp only [hv, Option.map_some']
      simp [dictGet, hne, ih h.2]

theorem dictGet_filterMap_keyed (f : String → Option Value) (l : List String)
    (k : String) (hnd : l.Nodup) :
    dictGet (l.filterMap (fun k' => (f k').map (fun v => (k', v)))) k
      = if k ∈ l then f k else none := by
  induction l with
  | nil => simp [dictGet]
  | cons k' rest ih =>
    simp only [List.nodup_cons] at hnd
    simp only [List.filterMap_cons, List.mem_cons]
    by_cases hk : k = k'
    · subst hk
      rcases hv : f k with _ | v
      · simp only [hv, Option.map_none']
        rw [dictGet_filterMap_not_mem f rest k hnd.1]
        simp [hv]
      · simp only [hv, Option.map_some']
        simp [dictGet, hv]
    · have hne : k' ≠ k := fun hh => hk hh.symm
      rcases hv : f k' with _ | v
      · simp only [hv, Option.map_none']
        simpa [hk] using ih hnd.2
      · simp only [hv, Option.map_some']
        simpa [dictGet, hne, hk] using ih hnd.2

theorem dictGet_to_xml (m : Metadata) (k : String) :
    dictGet m.to_xml k
      = if k ∈ COMIC_INFO_KEY_ORDER then dictGet m.data k else none := by
  rw [to_xml_eq_filterMap, dictGet_filterMap_keyed _ _ _ nodup_key_order]

/-! ## Comparator laws and the descending sort -/

theorem ordThen_swap (o₁ o₂ : Ordering) :
    (ordThen o₁ o₂).swap = ordThen o₁.swap o₂.swap := by
  cases o₁ <;> rfl

theorem ordThen_eq_eq (o₁ o₂ : Ordering) :
    ordThen o₁ o₂ = .eq ↔ o₁ = .eq ∧ o₂ = .eq := by
  cases o₁ <;> simp [ordThen]

theorem ordThen_eq_lt (o₁ o₂ : Ordering) :
    ordThen o₁ o₂ = .lt ↔ o₁ = .lt ∨ (o₁ = .eq ∧ o₂ = .lt) := by
  cases o₁ <;> simp [ordThen]

theorem cmpQ_lt_iff (a b : ℚ) : cmpQ a b = .lt ↔ a < b := by
  by_cases h : a < b
  · simp [cmpQ, h]
  · by_cases h2 : b < a <;> simp [cmpQ, h, h2]

theorem cmpQ_laws : CmpLaws cmpQ := by
  refine ⟨?_, ?_, ?_⟩
  · intro a b
    by_cases h1 : a < b
    · simp only [cmpQ, if_pos h1]
      constructor
      · intro h; cases h
      · rintro rfl; exact absurd h1 (lt_irrefl a)
    · by_cases h2 : b < a
      · simp only [cmpQ, if_neg h1, if_pos h2]
        constructor
        · intro h; cases h
        · rintro rfl; exact absurd h2 (lt_irrefl a)
      · simp only [cmpQ, if_neg h1, if_neg h2]
        simp [le_antisymm (not_lt.mp h2) (not_lt.mp h1)]
  · intro a b
    by_cases h1 : a < b
    · simp [cmpQ, h1, lt_asymm h1, Ordering.swap]
    · by_cases h2 : b < a
      · simp [cmpQ, h1, h2, lt_asymm h2, Ordering.swap]
      · simp [cmpQ, h1, h2, Ordering.swap]
  · intro a b c h1 h2
    exact (cmpQ_lt_iff a c).mpr
      (lt_trans ((cmpQ_lt_iff a b).mp h1) ((cmpQ_lt_iff b c).mp h2))

theorem char_eq_of_toNat {a b : Char} (h : a.toNat = b.toNat) : a = b :=
  Char.eq_of_val_eq (UInt32.ext h)

theorem cmpChars_eq_iff : ∀ (a b : List Char), cmpChars a b = .eq ↔ a = b
  | [], [] => by simp [cmpChars]
  | [], _ :: _ => by simp [cmpChars]
  | _ :: _, [] => by simp [cmpChars]
  | x :: xs, y :: ys => by
      by_cases h1 : x.toNat < y.toNat
      · simp only [cmpChars, if_pos h1]
        constructor
        · intro h; cases h
        · rintro ⟨⟩
          exact absurd h1 (lt_irrefl _)
      · by_cases h2 : y.toNat < x.toNat
        · simp only [cmpChars, if_neg h1, if_pos h2]
          constructor
          · intro h; cases h
          · rintro ⟨⟩
            exact absurd h2 (lt_irrefl _)
        · have hxy : x = y := char_eq_of_toNat (by omega)
          subst hxy
          simp only [cmpChars, if_neg h1, List.cons.injEq, true_and]
          simpa using cmpChars_eq_iff xs ys

theorem cmpChars_swap : ∀ (a b : List Char), (cmpChars a b).swap = cmpChars b a
  | [], [] => rfl
  | [], _ :: _ => rfl
  | _ :: _, [] => rfl
  | x :: xs, y :: ys => by
      by_cases h1 : x.toNat < y.toNat
      · have h2 : ¬ y.toNat < x.toNat := by omega
        simp [cmpChars, h1, h2, Ordering.swap]
      · by_cases h2 : y.toNat < x.toNat
        · simp [cmpChars, h1, h2, Ordering.swap]
        · simp [cmpChars, h1, h2, cmpChars_swap xs ys]

theorem cmpChars_cons_lt_iff (x y : Char) (xs ys : List Char) :
    cmpChars (x :: xs) (y :: ys) = .lt ↔
      x.toNat < y.toNat ∨ (x.toNat = y.toNat ∧ cmpChars xs ys = .lt) := by
  by_cases h1 : x.toNat < y.toNat
  · simp [cmpChars, h1]
  · by_cases h2 : y.toNat < x.toNat
    · simp only [cmpChars, if_neg h1, if_pos h2]
      constructor
      · intro h; cases h
      · intro h
        rcases h with h | ⟨h, _⟩ <;> omega
    · have he : x.toNat = y.toNat := by omega
      simp [cmpChars, h1, h2, he]

theorem cmpChars_lt_trans : ∀ (a b c : List Char),
    cmpChars a b = .lt → cmpChars b c = .lt → cmpChars a c = .lt
  | [], [], _, h1, _ => by simp [cmpChars] at h1
  | [], _ :: _, [], _, h2 => by simp [cmpChars] at h2
  | [], _ :: _, _ :: _, _, _ => by simp [cmpChars]
  | _ :: _, [], _, h1, _ => by simp [cmpChars] at h1
  | _ :: _, _ :: _, [], _, h2 => by simp [cmpChars] at h2
  | x :: xs, y :: ys, z :: zs, h1, h2 => by
      rw [cmpChars_cons_lt_iff] at h1 h2 ⊢
      rcases h1 with h1 | ⟨e1, r1⟩ <;> rcases h2 with h2 | ⟨e2, r2⟩
      · exact Or.inl (by omega)
      · exact Or.inl (by omega)
      · exact Or.inl (by omega)
      · exact Or.inr ⟨by omega, cmpChars_lt_trans xs ys zs r1 r2⟩

theorem string_data_inj {a b : String} (h : a.data = b.data) : a = b := by
  cases a
  cases b
  exact congrArg String.mk h

theorem cmpStr_laws : CmpLaws cmpStr := by
  refine ⟨?_, ?_, ?_⟩
  · intro a b
    rw [cmpStr, cmpChars_eq_iff]
    exact ⟨fun h => string_data_inj h, fun h => by rw [h]⟩
  · intro a b
    exact cmpChars_swap a.data b.data
  · intro a b c h1 h2
    exact cmpChars_lt_trans a.data b.data c.data h1 h2

theorem pairCmp_laws {α β : Type} {ca : α → α → Ordering} {cb : β → β → Ordering}
    (ha : CmpLaws ca) (hb : CmpLaws cb) : CmpLaws (pairCmp ca cb) := by
  refine ⟨?_, ?_, ?_⟩
  · intro u v
    rw [pairCmp, ordThen_eq_eq, ha.eq_iff, hb.eq_iff, Prod.ext_iff]
  · intro u v
    rw [pairCmp, pairCmp, ordThen_swap, ha.swap_eq, hb.swap_eq]
  · intro u v w h1 h2
    rw [pairCmp] at h1 h2 ⊢
    rw [ordThen_eq_lt] at h1 h2 ⊢
    rcases h1 with h1 | ⟨e1, r1⟩
    · rcases h2 with h2 | ⟨e2, r2⟩
      · exact Or.inl (ha.lt_trans _ _ _ h1 h2)
      · have hvw : v.1 = w.1 := (ha.eq_iff _ _).mp e2
        rw [← hvw]
        exact Or.inl h1
    · have huv : u.1 = v.1 := (ha.eq_iff _ _).mp e1
      rcases h2 with h2 | ⟨e2, r2⟩
      · rw [← huv] at h2
        exact Or.inl h2
      · have hvw : v.1 = w.1 := (ha.eq_iff _ _).mp e2
        refine Or.inr ⟨?_, hb.lt_trans _ _ _ r1 r2⟩
        rw [huv, hvw]
        exact (ha.eq_iff _ _).mpr rfl

theorem keyCmp_laws :
    CmpLaws (pairCmp cmpQ (pairCmp cmpStr (pairCmp cmpStr cmpStr))) :=
  pairCmp_laws cmpQ_laws (pairCmp_laws cmpStr_laws (pairCmp_laws cmpStr_laws cmpStr_laws))

theorem sortKey_inj {x y : ℚ × Candidate} (h : sortKey x = sortKey y) : x = y := by
  obtain ⟨qx, ix, tx, dx⟩ := x
  obtain ⟨qy, iy, ty, dy⟩ := y
  simp only [sortKey, Prod.mk.injEq] at h
  obtain ⟨rfl, rfl, rfl, rfl⟩ := h
  rfl

theorem cmpKey_eq_iff (x y : ℚ × Candidate) : cmpKey x y = .eq ↔ x = y := by
  rw [cmpKey, keyCmp_laws.eq_iff]
  exact ⟨fun h => sortKey_inj h, fun h => by rw [h]⟩

theorem cmpKey_swap (x y : ℚ × Candidate) : (cmpKey x y).swap = cmpKey y x :=
  keyCmp_laws.swap_eq _ _

theorem cmpKey_lt_trans (x y z : ℚ × Candidate) :
    cmpKey x y = .lt → cmpKey y z = .lt → cmpKey x z = .lt :=
  keyCmp_laws.lt_trans _ _ _

instance : IsTotal (ℚ × Candidate) keyGe := by
  constructor
  intro x y
  by_cases h : cmpKey x y = .lt
  · right
    intro h2
    have hsw := cmpKey_swap x y
    rw [h, h2] at hsw
    cases hsw
  · left
    exact h

instance : IsTrans (ℚ × Candidate) keyGe := by
  constructor
  intro x y z hxy hyz hxz
  rcases ho : cmpKey x y with _ | _ | _
  · exact hxy ho
  · have hx : x = y := (cmpKey_eq_iff x y).mp ho
    subst hx
    exact hyz hxz
  · have hyx : cmpKey y x = .lt := by
      have hsw := cmpKey_swap x y
      rw [ho] at hsw
      exact hsw.symm
    exact hyz (cmpKey_lt_trans y x z hyx hxz)

instance : IsAntisymm (ℚ × Candidate) keyGe := by
  constructor
  intro x y hxy hyx
  rcases ho : cmpKey x y with _ | _ | _
  · exact absurd ho hxy
  · exact (cmpKey_eq_iff x y).mp ho
  · exfalso
    apply hyx
    have hsw := cmpKey_swap x y
    rw [ho] at hsw
    exact hsw.symm

theorem keyGe_score_le {x y : ℚ × Candidate} (h : keyGe x y) : y.1 ≤ x.1 := by
  by_contra hlt
  apply h
  rw [cmpKey, pairCmp]
  rw [ordThen_eq_lt]
  exact Or.inl ((cmpQ_lt_iff _ _).mpr (not_le.mp hlt))

/-! ## Miscellaneous support lemmas -/

theorem mem_of_dictGet {d : Dict} {k : String} {v : Value}
    (h : dictGet d k = some v) : (k, v) ∈ d := by
  induction d with
  | nil => simp [dictGet] at h
  | cons p rest ih =>
    simp only [dictGet] at h
    by_cases hp : p.1 = k
    · rw [if_pos hp] at h
      have hpv : p = (k, v) := by
        obtain ⟨p1, p2⟩ := p
        simp only at hp
        subst hp
        simpa using Option.some.inj h
      rw [hpv]
      exact List.mem_cons_self _ rest
    · rw [if_neg hp] at h
      exact List.mem_cons_of_mem p (ih h)

/-! ## Claim theorems -/

/-- Claim C1: merge is field-wise overwrite.  For records `A`, `B` (with `B`
a well-formed dict, as every Python dict is) and any field `k`: after
`A.update(B)` every field set in `B` has exactly `B`'s value, every field set
in `A` but not in `B` keeps its prior value, and no field set in either
record is absent afterwards. -/
theorem metadata_update_fieldwise_overwrite (A B : Metadata) (hB : DictWF B.data)
    (k : String) :
    ((B.getItem k).isSome → (A.update B).getItem k = B.getItem k)
  ∧ (B.getItem k = none → (A.update B).getItem k = A.getItem k)
  ∧ (((A.getItem k).isSome ∨ (B.getItem k).isSome) →
      ((A.update B).getItem k).isSome) := by
  have key1 : (B.getItem k).isSome → (A.update B).getItem k = B.getItem k := by
    intro h
    obtain ⟨v, hv⟩ := Option.isSome_iff_exists.mp h
    show dictGet (dictUpdate A.data B.data) k = B.getItem k
    rw [dictGet_dictUpdate_of_mem A.data B.data k v hB hv]
    exact hv.symm
  have key2 : B.getItem k = none → (A.update B).getItem k = A.getItem k := by
    intro h
    exact dictGet_dictUpdate_of_not_mem A.data B.data k h
  refine ⟨key1, key2, ?_⟩
  intro h
  rcases h with h | h
  · rcases hB2 : B.getItem k with _ | v
    · rw [key2 hB2]
      exact h
    · rw [key1 (by simp [hB2])]
      simp [hB2]
  · rw [key1 h]
    exact h

/-- Witness for C1 at concrete records: `A = (defaults, Title: X)`,
`B = (defaults, Summary: S)`. -/
theorem metadata_update_fieldwise_overwrite_witness :
    ((Metadata.init [("Title", some "X")]).update
        (Metadata.init [("Summary", some "S")])).getItem "Summary"
      = (Metadata.init [("Summary", some "S")]).getItem "Summary"
  ∧ ((Metadata.init [("Title", some "X")]).update
        (Metadata.init [("Summary", some "S")])).getItem "Title"
      = (Metadata.init [("Title", some "X")]).getItem "Title" := by
  have h1 := metadata_update_fieldwise_overwrite
    (Metadata.init [("Title", some "X")])
    (Metadata.init [("Summary", some "S")]) (by decide) "Summary"
  have h2 := metadata_update_fieldwise_overwrite
    (Metadata.init [("Title", some "X")])
    (Metadata.init [("Summary", some "S")]) (by decide) "Title"
  exact ⟨h1.1 (by decide), h2.2.1 (by decide)⟩

/-- Claim C9 (amended): the serialized children of a record are exactly the
set fields that belong to the canonical key order, one child per such field
(the tag list repeats no key), in canonical order, with tag = field name and
text = field value; set fields outside the canonical vocabulary produce no
element (see `to_xml_drops_noncanonical_field`). -/
theorem to_xml_children_canonical (m : Metadata) :
    ((m.to_xml).map Prod.fst
        = COMIC_INFO_KEY_ORDER.filter (fun k => (dictGet m.data k).isSome))
  ∧ (∀ k v, (k, v) ∈ m.to_xml ↔
      k ∈ COMIC_INFO_KEY_ORDER ∧ dictGet m.data k = some v)
  ∧ ((m.to_xml).map Prod.fst).Nodup := by
  refine ⟨map_fst_to_xml m, fun k v => mem_to_xml_iff m k v, ?_⟩
  rw [map_fst_to_xml]
  exact nodup_key_order.filter _

/-- Counterexample to C9 as stated: the record `(defaults, Tags: Action)` (as
`MangaUpdates._parse_tags` produces) has the field `Tags` set, yet its
serialized form contains no `Tags` element. -/
theorem to_xml_drops_noncanonical_field :
    ((Metadata.init [("Tags", some "Action")]).getItem "Tags").isSome = true
  ∧ ((Metadata.init [("Tags", some "Action")]).to_xml).all
      (fun c => c.1 != "Tags") = true := by decide

/-- Claim C10: a freshly constructed record has exactly the two default
fields: the boolean-valued flag `Manga = "Yes"` (true) and the empty notes
sub-map `Notes = "\x7b\x7d"`; reading any key not among the defaults and the
explicitly supplied data is an error (`none`, modelling `KeyError`), never an
empty value. -/
theorem metadata_defaults_and_unset_get :
    (Metadata.init []).data = defaultData
  ∧ (Metadata.init []).getItem "Manga" = some (some "Yes")
  ∧ (Metadata.init []).getItem "Notes" = some (some "\x7b\x7d")
  ∧ (∀ k, ((Metadata.init []).getItem k).isSome → k = "Manga" ∨ k = "Notes")
  ∧ (∀ (data : Dict) (k : String), dictGet data k = none → k ≠ "Manga" →
      k ≠ "Notes" → (Metadata.init data).getItem k = none) := by
  refine ⟨rfl, rfl, rfl, ?_, ?_⟩
  · intro k h
    by_cases h1 : k = "Manga"
    · exact Or.inl h1
    by_cases h2 : k = "Notes"
    · exact Or.inr h2
    exfalso
    have e1 : ¬ ("Manga" = k) := fun hh => h1 hh.symm
    have e2 : ¬ ("Notes" = k) := fun hh => h2 hh.symm
    have hg : (Metadata.init []).getItem k = dictGet defaultData k := rfl
    rw [hg] at h
    simp [dictGet, defaultData, e1, e2] at h
  · intro data k hd h1 h2
    have e1 : ¬ ("Manga" = k) := fun hh => h1 hh.symm
    have e2 : ¬ ("Notes" = k) := fun hh => h2 hh.symm
    show dictGet (dictUpdate defaultData data) k = none
    rw [dictGet_dictUpdate_of_not_mem _ _ _ hd]
    simp [dictGet, defaultData, e1, e2]

/-- Witness for C10: on the record built from `(Title: X)`, reading the unset
field `Series` is an error. -/
theorem metadata_defaults_and_unset_get_witness :
    (Metadata.init [("Title", some "X")]).getItem "Series" = none := by
  have h := metadata_defaults_and_unset_get
  exact h.2.2.2.2 [("Title", some "X")] "Series" (by decide) (by decide) (by decide)

/-- Claim C3 (amended): for every score function, query and candidate list,
the ranking is sorted descending under Python's comparison of the whole
`(score, (id, title, description))` tuples — so ties in score are broken by
descending candidate-tuple comparison, not by input order — it is a
permutation of the scored input, and in particular scores are descending.
The final conjunct proves this ordering is the UNIQUE permutation of the
scored input sorted under the tuple order (`keyGe` is antisymmetric because
the whole tuples are compared): any correct sorting algorithm, including
CPython's, must return exactly `rankResults score name results`, so the
ranking is deterministic — the same input always yields the identical list.
The score argument ranges over all rationals, which include every finite
IEEE double, so the quantification covers the float scores the program
computes. -/
theorem rank_sorted_descending_perm (score : String → String → ℚ)
    (name : String) (results : List Candidate) :
    (rankResults score name results).Pairwise keyGe
  ∧ (rankResults score name results).Perm (scoredResults score name results)
  ∧ (rankResults score name results).Pairwise (fun a b => b.1 ≤ a.1)
  ∧ ∀ l : List (ℚ × Candidate), l.Perm (scoredResults score name results) →
      l.Pairwise keyGe → l = rankResults score name results := by
  have hs := List.sorted_insertionSort keyGe (scoredResults score name results)
  exact ⟨hs, List.perm_insertionSort keyGe _,
    hs.imp (fun h => keyGe_score_le h),
    fun l hl hp =>
      List.eq_of_perm_of_sorted
        (hl.trans (List.perm_insertionSort keyGe _).symm) hp hs⟩

/-- Witness for C3: at the concrete tied input, the ranking equals the one
sorted permutation, obtained through the uniqueness conjunct. -/
theorem rank_sorted_descending_perm_witness :
    rankResults simScore "T" [⟨"a", "T", "dT"⟩, ⟨"b", "T", "dT"⟩]
      = [(1, ⟨"b", "T", "dT"⟩), (1, ⟨"a", "T", "dT"⟩)] := by
  have h := rank_sorted_descending_perm simScore "T"
    [⟨"a", "T", "dT"⟩, ⟨"b", "T", "dT"⟩]
  exact (h.2.2.2 [(1, ⟨"b", "T", "dT"⟩), (1, ⟨"a", "T", "dT"⟩)]
    (by decide) (by decide)).symm

/-- Counterexample to C3 as stated: two candidates with equal titles (hence
equal similarity scores against any query) come back as `b` before `a` — the
reverse of their input order — because Python sorts the `(score, candidate)`
tuples themselves in descending order. -/
theorem rank_equal_scores_not_input_order :
    (rankResults simScore "T"
        [⟨"a", "T", "dT"⟩, ⟨"b", "T", "dT"⟩]).map Prod.snd
      = [⟨"b", "T", "dT"⟩, ⟨"a", "T", "dT"⟩]
  ∧ (rankResults simScore "T"
        [⟨"a", "T", "dT"⟩, ⟨"b", "T", "dT"⟩]).map Prod.fst = [1, 1] := by decide

/-- Claim C4 (code bug): with two ranked candidates, `get_int(0,
len(sim_results), ...)` accepts the out-of-range index `2` — both of its
bounds are inclusive — and `_pick_result` then evaluates `sim_results[2]`,
raising `IndexError` instead of re-soliciting. -/
theorem get_int_accepts_length_index_error :
    getInt 0 2 [.text "2"] = some 2
  ∧ pickResult "n" [⟨"a", "A", "dA"⟩, ⟨"b", "B", "dB"⟩] false [.text "2"]
      = .indexError := by decide

theorem mk_data (s : String) : (⟨s.data⟩ : String) = s := by
  cases s
  rfl

/-- The reparse changes no text free of carriage returns and made of XML
characters. -/
theorem normalizeEol_no_cr : ∀ l : List Char,
    (∀ c ∈ l, c.toNat ≠ 13) → normalizeEol l = l
  | [], _ => rfl
  | [c], h => by
      have hc := h c (List.mem_singleton.mpr rfl)
      simp [normalizeEol, hc]
  | c1 :: c2 :: rest, h => by
      have h1 := h c1 (List.mem_cons_self c1 (c2 :: rest))
      have hrest : ∀ c ∈ c2 :: rest, c.toNat ≠ 13 :=
        fun c hc => h c (List.mem_cons_of_mem c1 hc)
      simp [normalizeEol, h1, normalizeEol_no_cr (c2 :: rest) hrest]

theorem parseBackText_of_valueOk {v : Value} (h : valueOk v = true) :
    parseBackText v = some v := by
  rcases v with _ | s
  · rfl
  · simp only [valueOk, Bool.and_eq_true, Bool.not_eq_true'] at h
    obtain ⟨hne, hall⟩ := h
    have hxml : s.data.all xmlCharOk = true := by
      rw [List.all_eq_true] at hall ⊢
      intro c hc
      have h2 := hall c hc
      rw [Bool.and_eq_true] at h2
      exact h2.1
    have hcr : ∀ c ∈ s.data, c.toNat ≠ 13 := by
      intro c hc
      have h2 := (List.all_eq_true.mp hall) c hc
      rw [Bool.and_eq_true] at h2
      simpa using h2.2
    have hsne : ¬ (s = "") := by
      intro hh
      subst hh
      simp at hne
    simp only [parseBackText, if_pos hxml, if_neg hsne]
    rw [normalizeEol_no_cr s.data hcr, mk_data]

theorem roundTripChildren_all {ch : List (String × Value)}
    (h : ∀ c ∈ ch, parseBackText c.2 = some c.2) :
    roundTripChildren ch = some ch := by
  induction ch with
  | nil => rfl
  | cons c rest ih =>
    have hc := h c (List.mem_cons_self c rest)
    have hr := ih (fun x hx => h x (List.mem_cons_of_mem c hx))
    simp [roundTripChildren, hc, hr]

/-- Claim C5 (amended): the serialized form parses back, with identical
field values, for every record whose set fields belong to the canonical
vocabulary, which carries the two construction defaults (every record built
through the class API does), and whose set values are `None` or nonempty
strings of XML characters free of carriage returns.  Outside that: an
empty-string value reads back as `None`, a carriage return is normalized to
a line feed, and a non-XML character makes the reparse fail — see
`xml_roundtrip_empty_string_value_fails`. -/
theorem xml_roundtrip_preserves_values (m : Metadata)
    (hcanon : ∀ p ∈ m.data, p.1 ∈ COMIC_INFO_KEY_ORDER)
    (hdef : (dictGet m.data "Manga").isSome ∧ (dictGet m.data "Notes").isSome)
    (hgood : ∀ p ∈ m.data, valueOk p.2 = true) :
    xmlRoundTrip m = some (Metadata.from_xml m.to_xml)
  ∧ ∀ k, (Metadata.from_xml m.to_xml).getItem k = m.getItem k := by
  obtain ⟨hdefM, hdefN⟩ := hdef
  have hch : roundTripChildren m.to_xml = some m.to_xml := by
    apply roundTripChildren_all
    intro c hc
    obtain ⟨k0, v0⟩ := c
    obtain ⟨hk0, hv0⟩ := (mem_to_xml_iff m k0 v0).mp hc
    exact parseBackText_of_valueOk (hgood (k0, v0) (mem_of_dictGet hv0))
  constructor
  · rw [xmlRoundTrip, hch]
    rfl
  · intro k
    have hkeys : ((m.to_xml).map Prod.fst).Nodup := by
      rw [map_fst_to_xml]
      exact nodup_key_order.filter _
    have hb := dictGet_buildDict m.to_xml k hkeys
    have hx := dictGet_to_xml m k
    have hwf : DictWF ((m.to_xml).foldl (fun acc c => dictSet acc c.1 c.2) []) :=
      DictWF_foldl_dictSet _ [] (by simp [DictWF])
    show dictGet (dictUpdate defaultData
        ((m.to_xml).foldl (fun acc c => dictSet acc c.1 c.2) [])) k
      = dictGet m.data k
    by_cases hk : k ∈ COMIC_INFO_KEY_ORDER
    · rcases hm : dictGet m.data k with _ | v
      · have hnone : dictGet m.to_xml k = none := by
          rw [hx, if_pos hk, hm]
        rw [dictGet_dictUpdate_of_not_mem _ _ _ (hb.trans hnone)]
        have hMa : k ≠ "Manga" := by
          rintro rfl
          rw [hm] at hdefM
          cases hdefM
        have hNo : k ≠ "Notes" := by
          rintro rfl
          rw [hm] at hdefN
          cases hdefN
        have e1 : ¬ ("Manga" = k) := fun hh => hMa hh.symm
        have e2 : ¬ ("Notes" = k) := fun hh => hNo hh.symm
        simp [dictGet, defaultData, e1, e2]
      · have hsome : dictGet m.to_xml k = some v := by
          rw [hx, if_pos hk, hm]
        exact dictGet_dictUpdate_of_mem _ _ _ v hwf (hb.trans hsome)
    · have hm : dictGet m.data k = none := by
        rcases hq : dictGet m.data k with _ | v
        · rfl
        · exact absurd (hcanon (k, v) (mem_of_dictGet hq)) hk
      have hnone : dictGet m.to_xml k = none := by
        rw [hx, if_neg hk]
      rw [dictGet_dictUpdate_of_not_mem _ _ _ (hb.trans hnone), hm]
      have hMa : k ≠ "Manga" := by
        rintro rfl
        exact hk (by decide)
      have hNo : k ≠ "Notes" := by
        rintro rfl
        exact hk (by decide)
      have e1 : ¬ ("Manga" = k) := fun hh => hMa hh.symm
      have e2 : ¬ ("Notes" = k) := fun hh => hNo hh.symm
      simp [dictGet, defaultData, e1, e2]

/-- Counterexample to C5 as stated: the record `(defaults, Title: "")` — all
fields canonical — does not survive the round trip (the `Title` element is
written as a self-closing tag and reads back as `None`); further, a value
with a carriage return comes back end-of-line-normalized
(`"a\rb"` to `"a\nb"`), and a value with a control character makes the
reparse fail entirely (`ParseError`). -/
theorem xml_roundtrip_empty_string_value_fails :
    (Metadata.init [("Title", some "")]).getItem "Title" = some (some "")
  ∧ (xmlRoundTrip (Metadata.init [("Title", some "")])).map
      (fun m2 => m2.getItem "Title") = some (some none)
  ∧ (xmlRoundTrip (Metadata.init [("Title", some "a\rb")])).map
      (fun m2 => m2.getItem "Title") = some (some (some "a\nb"))
  ∧ xmlRoundTrip (Metadata.init [("Title", some "a\x01b")]) = none := by
  refine ⟨by decide, by decide, by decide, by decide⟩

/-- Witness for C5 on the record `(defaults, Title: X)`. -/
theorem xml_roundtrip_preserves_values_witness :
    xmlRoundTrip (Metadata.init [("Title", some "X")])
      = some (Metadata.from_xml (Metadata.init [("Title", some "X")]).to_xml)
  ∧ (Metadata.from_xml (Metadata.init [("Title", some "X")]).to_xml).getItem
      "Title" = (Metadata.init [("Title", some "X")]).getItem "Title" := by
  have h := xml_roundtrip_preserves_values (Metadata.init [("Title", some "X")])
    (by decide) (by decide) (by decide)
  exact ⟨h.1, h.2 "Title"⟩

/-! ## Commit-trace and update lemmas -/

theorem metaRegex_self : nameMatchesMetadataRegex METADATA_FILENAME = true := by
  decide

theorem keptMembers_not_metadata (ar : List Member) :
    ∀ m ∈ keptMembers ar, m.1 ≠ METADATA_FILENAME := by
  intro m hm hEq
  have hf := (List.mem_filter.mp hm).2
  rw [hEq] at hf
  rw [metaRegex_self] at hf
  cases hf

theorem commitStates_shape (ar : List Member) (entry : FileData)
    (crossDevice : Bool) :
    commitStates ar entry crossDevice
      = ((⟨.zipFile ar, none⟩ :: (List.range ((keptMembers ar).length + 1)).map
            (fun j => (⟨.zipFile ar, some ((keptMembers ar).take j)⟩ : FsState)))
          ++ (if crossDevice then
                [⟨.partialCopy (keptMembers ar), some (keptMembers ar)⟩,
                 ⟨.zipFile (keptMembers ar), some (keptMembers ar)⟩,
                 ⟨.zipFile (keptMembers ar), none⟩]
              else [⟨.zipFile (keptMembers ar), none⟩])
          ++ [⟨.partialAppend (keptMembers ar) (METADATA_FILENAME, entry), none⟩])
        ++ [⟨.zipFile (keptMembers ar ++ [(METADATA_FILENAME, entry)]), none⟩] := by
  cases crossDevice <;> simp [commitStates]

theorem commitStates_original_cases (ar : List Member) (entry : FileData)
    (cross : Bool) (s : FsState) (hs : s ∈ commitStates ar entry cross) :
    s.original = .zipFile ar
  ∨ (cross = true ∧ s.original = .partialCopy (keptMembers ar))
  ∨ s.original = .zipFile (keptMembers ar)
  ∨ s.original = .partialAppend (keptMembers ar) (METADATA_FILENAME, entry)
  ∨ s.original = .zipFile (keptMembers ar ++ [(METADATA_FILENAME, entry)]) := by
  rw [commitStates_shape] at hs
  rcases List.mem_append.mp hs with hs | hs
  · rcases List.mem_append.mp hs with hs | hs
    · rcases List.mem_append.mp hs with hs | hs
      · rcases List.mem_cons.mp hs with rfl | hs
        · exact Or.inl rfl
        · obtain ⟨j, _, rfl⟩ := List.mem_map.mp hs
          exact Or.inl rfl
      · cases cross
        · have h3 : s = ⟨.zipFile (keptMembers ar), none⟩ := by
            simpa using hs
          subst h3
          exact Or.inr (Or.inr (Or.inl rfl))
        · have h3 : s = ⟨.partialCopy (keptMembers ar), some (keptMembers ar)⟩
              ∨ s = ⟨.zipFile (keptMembers ar), some (keptMembers ar)⟩
              ∨ s = ⟨.zipFile (keptMembers ar), none⟩ := by
            simpa using hs
          rcases h3 with rfl | rfl | rfl
          · exact Or.inr (Or.inl ⟨rfl, rfl⟩)
          · exact Or.inr (Or.inr (Or.inl rfl))
          · exact Or.inr (Or.inr (Or.inl rfl))
    · have h3 : s = ⟨.partialAppend (keptMembers ar) (METADATA_FILENAME, entry),
          none⟩ := by
        simpa using hs
      subst h3
      exact Or.inr (Or.inr (Or.inr (Or.inl rfl)))
  · have h3 : s = ⟨.zipFile (keptMembers ar ++ [(METADATA_FILENAME, entry)]),
        none⟩ := by
      simpa using hs
    subst h3
    exact Or.inr (Or.inr (Or.inr (Or.inr rfl)))

/-- Claim C2 (amended): the rebuild is written to a temporary location while
the original path stays untouched, and on a single filesystem the move then
installs it in one rename — the only states of the original path are the old
archive, the rebuilt archive, the final archive, and the append's
partially-written state.  But (i) the new metadata entry is appended in
place afterwards, so the original path passes through a state that is not a
well-formed archive; (ii) between the two steps the original path holds a
complete archive with no metadata entry; (iii) when the temporary directory
lies on another filesystem, `shutil.move` degrades to a copy and the
original path additionally passes through a partially-copied state.  Every
member whose name does not match the metadata pattern is carried through
byte-identical; members whose names merely contain the pattern are removed
together with the metadata entry. -/
theorem commit_rebuild_then_inplace_append (ar : List Member) (entry : FileData)
    (crossDevice : Bool) :
    ((commitStates ar entry crossDevice).getLast?
        = some ⟨.zipFile (keptMembers ar ++ [(METADATA_FILENAME, entry)]), none⟩)
  ∧ (∀ s ∈ commitStates ar entry crossDevice,
        s.original = .zipFile ar
      ∨ s.original = .partialCopy (keptMembers ar)
      ∨ s.original = .zipFile (keptMembers ar)
      ∨ s.original = .partialAppend (keptMembers ar) (METADATA_FILENAME, entry)
      ∨ s.original = .zipFile (keptMembers ar ++ [(METADATA_FILENAME, entry)]))
  ∧ (∀ s ∈ commitStates ar entry false,
        s.original = .zipFile ar
      ∨ s.original = .zipFile (keptMembers ar)
      ∨ s.original = .partialAppend (keptMembers ar) (METADATA_FILENAME, entry)
      ∨ s.original = .zipFile (keptMembers ar ++ [(METADATA_FILENAME, entry)]))
  ∧ ((⟨.partialAppend (keptMembers ar) (METADATA_FILENAME, entry), none⟩ : FsState)
        ∈ ((commitStates ar entry crossDevice).dropLast).drop 1)
  ∧ ((⟨.partialCopy (keptMembers ar), some (keptMembers ar)⟩ : FsState)
        ∈ commitStates ar entry true)
  ∧ (∀ m ∈ ar, nameMatchesMetadataRegex m.1 = false → m ∈ keptMembers ar)
  ∧ (∃ s ∈ ((commitStates ar entry crossDevice).dropLast).drop 1,
        s.original = .zipFile (keptMembers ar)
      ∧ ∀ m ∈ keptMembers ar, m.1 ≠ METADATA_FILENAME) := by
  have hdrop : ((commitStates ar entry crossDevice).dropLast).drop 1
      = ((List.range ((keptMembers ar).length + 1)).map
            (fun j => (⟨.zipFile ar, some ((keptMembers ar).take j)⟩ : FsState)))
        ++ ((if crossDevice then
                [⟨.partialCopy (keptMembers ar), some (keptMembers ar)⟩,
                 ⟨.zipFile (keptMembers ar), some (keptMembers ar)⟩,
                 ⟨.zipFile (keptMembers ar), none⟩]
              else [⟨.zipFile (keptMembers ar), none⟩])
          ++ [⟨.partialAppend (keptMembers ar) (METADATA_FILENAME, entry), none⟩]) := by
    rw [commitStates_shape, List.dropLast_concat]
    simp [List.cons_append, List.append_assoc]
  refine ⟨?_, ?_, ?_, ?_, ?_, ?_, ?_⟩
  · rw [commitStates_shape, List.getLast?_concat]
  · intro s hs
    rcases commitStates_original_cases ar entry crossDevice s hs with
      h | ⟨_, h⟩ | h | h | h
    · exact Or.inl h
    · exact Or.inr (Or.inl h)
    · exact Or.inr (Or.inr (Or.inl h))
    · exact Or.inr (Or.inr (Or.inr (Or.inl h)))
    · exact Or.inr (Or.inr (Or.inr (Or.inr h)))
  · intro s hs
    rcases commitStates_original_cases ar entry false s hs with
      h | ⟨hc, _⟩ | h | h | h
    · exact Or.inl h
    · cases hc
    · exact Or.inr (Or.inl h)
    · exact Or.inr (Or.inr (Or.inl h))
    · exact Or.inr (Or.inr (Or.inr h))
  · rw [hdrop]
    refine List.mem_append_right _ (List.mem_append_right _ ?_)
    exact List.mem_singleton.mpr rfl
  · simp [commitStates]
  · intro m hm hf
    exact List.mem_filter.mpr ⟨hm, by simp [hf]⟩
  · refine ⟨⟨.zipFile (keptMembers ar), none⟩, ?_, rfl, keptMembers_not_metadata ar⟩
    rw [hdrop]
    refine List.mem_append_right _ (List.mem_append_left _ ?_)
    cases crossDevice
    · simp
    · simp

/-- Counterexample to C2 as stated: for an archive with members
`ComicInfo.xml`, `page1.png` and `notes/ComicInfo.xml.bak` (same-filesystem
move), the commit's fourth filesystem state — after the move, before the
in-place append — is an intermediate state whose archive has no
`ComicInfo.xml` member at all; its fifth state is an intermediate state in
which the original path is not a well-formed archive (the in-place append is
underway); the final archive has dropped the non-metadata member
`notes/ComicInfo.xml.bak` whose name merely contains the pattern; and on a
cross-filesystem move the original path additionally passes through a
partially-copied state. -/
theorem commit_intermediate_state_missing_metadata :
    (commitStates
        [("ComicInfo.xml", .raw "old"), ("page1.png", .raw "img"),
         ("notes/ComicInfo.xml.bak", .raw "b")] (.raw "new") false).get? 3
      = some ⟨.zipFile [("page1.png", .raw "img")], none⟩
  ∧ (commitStates
        [("ComicInfo.xml", .raw "old"), ("page1.png", .raw "img"),
         ("notes/ComicInfo.xml.bak", .raw "b")] (.raw "new") false).get? 4
      = some ⟨.partialAppend [("page1.png", .raw "img")]
          ("ComicInfo.xml", .raw "new"), none⟩
  ∧ (commitStates
        [("ComicInfo.xml", .raw "old"), ("page1.png", .raw "img"),
         ("notes/ComicInfo.xml.bak", .raw "b")] (.raw "new") false).length = 6
  ∧ (([("page1.png", FileData.raw "img")] : List Member).all
      (fun m => m.1 != "ComicInfo.xml")) = true
  ∧ (("notes/ComicInfo.xml.bak", FileData.raw "b") ∈
      ([("page1.png", .raw "img"),
        ("ComicInfo.xml", .raw "new")] : List Member)) = False
  ∧ (⟨.partialCopy [("page1.png", .raw "img")],
        some [("page1.png", .raw "img")]⟩ : FsState) ∈ commitStates
        [("ComicInfo.xml", .raw "old"), ("page1.png", .raw "img"),
         ("notes/ComicInfo.xml.bak", .raw "b")] (.raw "new") true := by
  refine ⟨by decide, by decide, by decide, by decide, by decide, by decide⟩

theorem mainBatch_cons (nc : Bool) (item : BatchItem) (rest : List BatchItem)
    (c : ℕ) (fin : Option (List Member)) (s : ℕ)
    (outs : List (ℕ × Option (List Member)))
    (hu : update item.archive item.basename nc item.fetchResult = some (c, fin))
    (hrest : mainBatch nc rest = some (s, outs)) :
    mainBatch nc (item :: rest) = some (c + s, (c, fin) :: outs) := by
  simp only [mainBatch]
  rw [hu, hrest]

/-- Claim C6: if the filename key parses, the archive's metadata is readable,
no-clobber does not apply, and the fetch step fails (`none`: zero candidates,
cancelled selection, or fetch error), then `update` returns exit code 1 with
the archive exactly as it was — every member, metadata entry included,
byte-identical — and a batch containing such an item still processes the
remaining items, adding 1 to the exit status. -/
theorem update_fetch_failure_archive_untouched (ar : List Member)
    (basename : String) (nc : Bool) (key : ArchiveKey)
    (hkey : parseArchiveKey basename = some key)
    (old : Metadata) (present : Bool) (hcbz : pyFromCbz ar = some (old, present))
    (hskip : (present && nc) = false) :
    update (some ar) basename nc none = some (1, some ar)
  ∧ (∀ rest s outs, mainBatch nc rest = some (s, outs) →
      mainBatch nc (⟨some ar, basename, none⟩ :: rest)
        = some (1 + s, (1, some ar) :: outs)) := by
  have hu : update (some ar) basename nc none = some (1, some ar) := by
    simp only [update, hkey, hcbz]
    simp [hskip]
  exact ⟨hu, fun rest s outs hrest => mainBatch_cons nc _ rest 1 (some ar) s outs hu hrest⟩

/-- Witness for C6: a one-member archive without metadata, basename
`A v1 c2.cbz`, failing fetch. -/
theorem update_fetch_failure_archive_untouched_witness :
    update (some [("page.png", .raw "img")]) "A v1 c2.cbz" false none
      = some (1, some [("page.png", .raw "img")]) := by
  have h := update_fetch_failure_archive_untouched
    [("page.png", FileData.raw "img")] "A v1 c2.cbz" false
    ⟨"A", "1", "2"⟩ (by decide) (Metadata.init []) false (by decide) (by decide)
  exact h.1

/-- Claim C7: when the key parses and the fetch step succeeds with record
`fetched` (and no-clobber does not apply), `update` returns exit code 0 and
the committed archive is the rebuilt member list plus a metadata entry that
serializes the pre-existing record merged with the fetched record, with
`Volume` and `Number` overwritten from the filename-derived key — the two
key-derived fields win regardless of what the source or prior metadata
held. -/
theorem update_success_commits_merged_metadata (ar : List Member)
    (basename : String) (nc : Bool) (key : ArchiveKey)
    (hkey : parseArchiveKey basename = some key)
    (old : Metadata) (present : Bool) (hcbz : pyFromCbz ar = some (old, present))
    (hskip : (present && nc) = false) (fetched : Metadata) :
    update (some ar) basename nc (some fetched)
      = some (0, some (keptMembers ar ++ [(METADATA_FILENAME,
          writeXmlEntry ((((old.update fetched).copy).setItem "Volume"
            (some key.volume)).setItem "Number" (some key.chapter)))]))
  ∧ ((((old.update fetched).copy).setItem "Volume" (some key.volume)).setItem
        "Number" (some key.chapter)).getItem "Volume" = some (some key.volume)
  ∧ ((((old.update fetched).copy).setItem "Volume" (some key.volume)).setItem
        "Number" (some key.chapter)).getItem "Number" = some (some key.chapter) := by
  refine ⟨?_, ?_, ?_⟩
  · simp only [update, hkey, hcbz]
    simp [hskip]
  · show dictGet (dictSet (dictSet ((old.update fetched).copy).data "Volume"
        (some key.volume)) "Number" (some key.chapter)) "Volume"
      = some (some key.volume)
    rw [dictGet_dictSet_ne _ _ _ _ (by decide), dictGet_dictSet_self]
  · show dictGet (dictSet (dictSet ((old.update fetched).copy).data "Volume"
        (some key.volume)) "Number" (some key.chapter)) "Number"
      = some (some key.chapter)
    rw [dictGet_dictSet_self]

/-- Witness for C7: a one-member archive without metadata, basename
`A v1 c2.cbz`, fetch returning the default-constructed record. -/
theorem update_success_commits_merged_metadata_witness :
    update (some [("page.png", .raw "img")]) "A v1 c2.cbz" false
        (some (Metadata.init []))
      = some (0, some [("page.png", FileData.raw "img"),
          (METADATA_FILENAME, writeXmlEntry
            (((((Metadata.init []).update (Metadata.init [])).copy).setItem
              "Volume" (some "1")).setItem "Number" (some "2")))]) := by
  have h := update_success_commits_merged_metadata
    [("page.png", FileData.raw "img")] "A v1 c2.cbz" false
    ⟨"A", "1", "2"⟩ (by decide) (Metadata.init []) false (by decide) (by decide)
    (Metadata.init [])
  exact h.1

/-! ## Span and strip lemmas for filename parsing -/

theorem takeWhile_append_stop (p : Char → Bool) (l : List Char) (c : Char)
    (r : List Char) (hl : ∀ x ∈ l, p x = true) (hc : p c = false) :
    (l ++ c :: r).takeWhile p = l ∧ (l ++ c :: r).dropWhile p = c :: r := by
  induction l with
  | nil => simp [List.takeWhile_cons, List.dropWhile_cons, hc]
  | cons a t ih =>
    have ha : p a = true := hl a (by simp)
    have ht : ∀ x ∈ t, p x = true := fun x hx => hl x (by simp [hx])
    obtain ⟨ih1, ih2⟩ := ih ht
    simp [List.takeWhile_cons, List.dropWhile_cons, ha, ih1, ih2]

theorem length_dropWhile_le (p : Char → Bool) (l : List Char) :
    (l.dropWhile p).length ≤ l.length := by
  induction l with
  | nil => simp
  | cons a t ih =>
    by_cases h : p a = true
    · rw [List.dropWhile_cons, if_pos h]
      exact le_trans ih (by simp)
    · rw [List.dropWhile_cons, if_neg (by simp [h])]

theorem dropWhile_eq_self_of_length (p : Char → Bool) (l : List Char)
    (h : (l.dropWhile p).length = l.length) : l.dropWhile p = l := by
  cases l with
  | nil => rfl
  | cons a t =>
    by_cases hp : p a = true
    · exfalso
      rw [List.dropWhile_cons, if_pos hp] at h
      have hle := length_dropWhile_le p t
      simp only [List.length_cons] at h
      omega
    · rw [List.dropWhile_cons, if_neg (by simp [hp])]

theorem head_not_of_dropWhile_eq (p : Char → Bool) (c : Char) (t : List Char)
    (h : (c :: t).dropWhile p = c :: t) : p c = false := by
  by_cases hp : p c = true
  · exfalso
    rw [List.dropWhile_cons, if_pos hp] at h
    have hlen := congrArg List.length h
    have hle := length_dropWhile_le p t
    simp only [List.length_cons] at hlen
    omega
  · cases hq : p c
    · rfl
    · exact absurd hq hp

theorem stripList_parts (l : List Char) (h : stripList l = l) :
    l.dropWhile isWsB = l ∧ l.reverse.dropWhile isWsB = l.reverse := by
  unfold stripList at h
  have h1 : l.dropWhile isWsB = l := by
    apply dropWhile_eq_self_of_length
    have e1 := congrArg List.length h
    simp only [List.length_reverse] at e1
    have le1 := length_dropWhile_le isWsB ((l.dropWhile isWsB).reverse)
    have le2 := length_dropWhile_le isWsB l
    simp only [List.length_reverse] at le1
    omega
  rw [h1] at h
  refine ⟨h1, ?_⟩
  have h2 := congrArg List.reverse h
  rwa [List.reverse_reverse] at h2

theorem not_lower_of_digit {c : Char} (h : isDigitB c = true) :
    isLowerB c = false := by
  cases hq : isLowerB c
  · rfl
  · exfalso
    simp only [isDigitB, Bool.and_eq_true, decide_eq_true_eq] at h
    simp only [isLowerB, Bool.and_eq_true, decide_eq_true_eq] at hq
    omega

theorem not_ws_of_digit {c : Char} (h : isDigitB c = true) : isWsB c = false := by
  cases hq : isWsB c
  · rfl
  · exfalso
    simp only [isDigitB, Bool.and_eq_true, decide_eq_true_eq] at h
    simp only [isWsB, Bool.or_eq_true, decide_eq_true_eq] at hq
    omega



/-- Completeness of the filename pattern: any basename assembled as
`<name> v<digits> c<digits><optional-letter>.cbz` (stripped nonempty name
without newlines, nonempty digit groups) parses, with the groups
post-processed exactly as `update.update` does. -/
theorem parse_constructed_name (nm : String) (vd cd lo : List Char)
    (hstrip : pyStrip nm = nm) (hne : nm ≠ "")
    (hnl : ∀ c ∈ nm.data, c.toNat ≠ 10)
    (hvd : vd ≠ []) (hvdD : ∀ c ∈ vd, isDigitB c = true)
    (hcd : cd ≠ []) (hcdD : ∀ c ∈ cd, isDigitB c = true)
    (hlo : lo = [] ∨ ∃ c, lo = [c] ∧ isLowerB c = true) :
    parseArchiveKey (nm ++ " v" ++ ⟨vd⟩ ++ " c" ++ ⟨cd⟩ ++ ⟨lo⟩ ++ ".cbz")
      = some ⟨nm, Nat.repr (digitsToNat vd), ⟨cd ++ lo⟩⟩ := by
  rcases hcv : cd.reverse with _ | ⟨e, es⟩
  · exact absurd (List.reverse_eq_nil_iff.mp hcv) hcd
  rcases hfv : vd.reverse with _ | ⟨f, fs⟩
  · exact absurd (List.reverse_eq_nil_iff.mp hfv) hvd
  rcases hgv : nm.data.reverse with _ | ⟨g, gs⟩
  · exact absurd (string_data_inj (List.reverse_eq_nil_iff.mp hgv)) hne
  have hdata : (nm ++ " v" ++ ⟨vd⟩ ++ " c" ++ ⟨cd⟩ ++ ⟨lo⟩ ++ ".cbz").data
      = nm.data ++ ([' ', 'v'] ++ (vd ++ ([' ', 'c'] ++ (cd ++ (lo ++ ['.', 'c', 'b', 'z']))))) := by
    simp [String.data_append, List.append_assoc]
  have hrevraw : (nm ++ " v" ++ ⟨vd⟩ ++ " c" ++ ⟨cd⟩ ++ ⟨lo⟩ ++ ".cbz").data.reverse
      = 'z' :: 'b' :: 'c' :: '.' :: (lo.reverse ++ (e :: (es ++ ('c' :: (' ' :: (f :: (fs ++ ('v' :: (' ' :: (g :: gs)))))))))) := by
    rw [hdata]
    simp [List.reverse_append, hcv, hfv, hgv]
  have hsp : stripList nm.data = nm.data := congrArg String.data hstrip
  obtain ⟨hd1, hd2⟩ := stripList_parts nm.data hsp
  rcases hnm : nm.data with _ | ⟨c0, t⟩
  · exact absurd (string_data_inj hnm) hne
  have hws0 : isWsB c0 = false := head_not_of_dropWhile_eq _ _ _ (hnm ▸ hd1)
  have hg : isWsB g = false := by
    rw [hgv] at hd2
    exact head_not_of_dropWhile_eq _ _ _ hd2
  have hdw_whole : (nm ++ " v" ++ ⟨vd⟩ ++ " c" ++ ⟨cd⟩ ++ ⟨lo⟩ ++ ".cbz").data.dropWhile isWsB
      = (nm ++ " v" ++ ⟨vd⟩ ++ " c" ++ ⟨cd⟩ ++ ⟨lo⟩ ++ ".cbz").data := by
    rw [hdata, hnm]
    rw [List.cons_append, List.dropWhile_cons, if_neg (by simp [hws0])]
  have hstw : stripList (nm ++ " v" ++ ⟨vd⟩ ++ " c" ++ ⟨cd⟩ ++ ⟨lo⟩ ++ ".cbz").data
      = (nm ++ " v" ++ ⟨vd⟩ ++ " c" ++ ⟨cd⟩ ++ ⟨lo⟩ ++ ".cbz").data := by
    unfold stripList
    rw [hdw_whole, hrevraw]
    rw [List.dropWhile_cons, if_neg (by decide)]
    rw [← hrevraw, List.reverse_reverse]
  have hbig : (stripList (nm ++ " v" ++ ⟨vd⟩ ++ " c" ++ ⟨cd⟩ ++ ⟨lo⟩ ++ ".cbz").data).reverse
      = 'z' :: 'b' :: 'c' :: '.' :: (lo.reverse ++ (e :: (es ++ ('c' :: (' ' :: (f :: (fs ++ ('v' :: (' ' :: (g :: gs)))))))))) := by
    rw [hstw, hrevraw]
  have he : isDigitB e = true := hcdD e (by
    rw [← List.mem_reverse, hcv]
    exact List.mem_cons_self e es)
  have hes : ∀ x ∈ es, isDigitB x = true := fun x hx => hcdD x (by
    rw [← List.mem_reverse, hcv]
    exact List.mem_cons_of_mem e hx)
  have hf : isDigitB f = true := hvdD f (by
    rw [← List.mem_reverse, hfv]
    exact List.mem_cons_self f fs)
  have hfs : ∀ x ∈ fs, isDigitB x = true := fun x hx => hvdD x (by
    rw [← List.mem_reverse, hfv]
    exact List.mem_cons_of_mem f hx)
  have hpop : popLower (lo.reverse ++ (e :: (es ++ ('c' :: (' ' :: (f :: (fs ++ ('v' :: (' ' :: (g :: gs))))))))))
      = (lo, e :: (es ++ ('c' :: (' ' :: (f :: (fs ++ ('v' :: (' ' :: (g :: gs))))))))) := by
    rcases hlo with rfl | ⟨c, rfl, hlc⟩
    · simp only [List.reverse_nil, List.nil_append, popLower]
      rw [if_neg (by simp [not_lower_of_digit he])]
    · simp only [List.reverse_cons, List.reverse_nil, List.nil_append, List.cons_append, popLower]
      rw [if_pos hlc]
  have htkc : ((e :: (es ++ ('c' :: (' ' :: (f :: (fs ++ ('v' :: (' ' :: (g :: gs))))))))).takeWhile isDigitB)
      = e :: es := by
    have h := (takeWhile_append_stop isDigitB (e :: es) 'c'
      (' ' :: (f :: (fs ++ ('v' :: (' ' :: (g :: gs))))))
      (by
        intro x hx
        rcases List.mem_cons.mp hx with rfl | hx
        · exact he
        · exact hes x hx)
      (by decide)).1
    rwa [List.cons_append] at h
  have hdkc : ((e :: (es ++ ('c' :: (' ' :: (f :: (fs ++ ('v' :: (' ' :: (g :: gs))))))))).dropWhile isDigitB)
      = 'c' :: (' ' :: (f :: (fs ++ ('v' :: (' ' :: (g :: gs)))))) := by
    have h := (takeWhile_append_stop isDigitB (e :: es) 'c'
      (' ' :: (f :: (fs ++ ('v' :: (' ' :: (g :: gs))))))
      (by
        intro x hx
        rcases List.mem_cons.mp hx with rfl | hx
        · exact he
        · exact hes x hx)
      (by decide)).2
    rwa [List.cons_append] at h
  have htw1 : ((' ' :: (f :: (fs ++ ('v' :: (' ' :: (g :: gs)))))).takeWhile isWsB) = [' '] := by
    have h := (takeWhile_append_stop isWsB [' '] f (fs ++ ('v' :: (' ' :: (g :: gs))))
      (by decide) (not_ws_of_digit hf)).1
    rwa [List.cons_append, List.nil_append] at h
  have hdw1 : ((' ' :: (f :: (fs ++ ('v' :: (' ' :: (g :: gs)))))).dropWhile isWsB)
      = f :: (fs ++ ('v' :: (' ' :: (g :: gs)))) := by
    have h := (takeWhile_append_stop isWsB [' '] f (fs ++ ('v' :: (' ' :: (g :: gs))))
      (by decide) (not_ws_of_digit hf)).2
    rwa [List.cons_append, List.nil_append] at h
  have htkv : ((f :: (fs ++ ('v' :: (' ' :: (g :: gs))))).takeWhile isDigitB) = f :: fs := by
    have h := (takeWhile_append_stop isDigitB (f :: fs) 'v' (' ' :: (g :: gs))
      (by
        intro x hx
        rcases List.mem_cons.mp hx with rfl | hx
        · exact hf
        · exact hfs x hx)
      (by decide)).1
    rwa [List.cons_append] at h
  have hdkv : ((f :: (fs ++ ('v' :: (' ' :: (g :: gs))))).dropWhile isDigitB)
      = 'v' :: (' ' :: (g :: gs)) := by
    have h := (takeWhile_append_stop isDigitB (f :: fs) 'v' (' ' :: (g :: gs))
      (by
        intro x hx
        rcases List.mem_cons.mp hx with rfl | hx
        · exact hf
        · exact hfs x hx)
      (by decide)).2
    rwa [List.cons_append] at h
  have htw2 : ((' ' :: (g :: gs)).takeWhile isWsB) = [' '] := by
    have h := (takeWhile_append_stop isWsB [' '] g gs (by decide) hg).1
    rwa [List.cons_append, List.nil_append] at h
  have hdw2 : ((' ' :: (g :: gs)).dropWhile isWsB) = g :: gs := by
    have h := (takeWhile_append_stop isWsB [' '] g gs (by decide) hg).2
    rwa [List.cons_append, List.nil_append] at h
  have hany : ((g :: gs).any (fun c => c.toNat = 10)) = false := by
    rw [← hgv]
    rw [List.any_eq_false]
    intro x hx
    simp only [decide_eq_true_eq]
    exact hnl x (List.mem_reverse.mp hx)
  show parseCbzName (stripList (nm ++ " v" ++ ⟨vd⟩ ++ " c" ++ ⟨cd⟩ ++ ⟨lo⟩ ++ ".cbz").data)
      = some ⟨nm, Nat.repr (digitsToNat vd), ⟨cd ++ lo⟩⟩
  unfold parseCbzName
  rw [hbig]
  simp only [hpop, htkc, hdkc, htw1, hdw1, htkv, hdkv, htw2, hdw2, hany,
    List.isEmpty_cons, Bool.false_eq_true, if_false]
  simp only [← hgv, ← hfv, ← hcv, List.reverse_reverse, hsp, mk_data]


/-- Claim C8: `"Attack Titan v03 c015.cbz"` parses to the key
`(Attack Titan, 3, 015)` and `"not_a_valid_name.cbz"` fails to parse; every
basename assembled from the pattern `<name> v<digits>
c<digits-with-optional-trailing-letter>.cbz` parses (see
`parse_constructed_name`); and a parse failure yields exit code 1 for that
archive, leaves it untouched, and batch processing continues with the
remaining paths. -/
theorem archive_key_parsing_spec :
    parseArchiveKey "Attack Titan v03 c015.cbz"
      = some ⟨"Attack Titan", "3", "015"⟩
  ∧ parseArchiveKey "not_a_valid_name.cbz" = none
  ∧ (∀ (nm : String) (vd cd lo : List Char),
      pyStrip nm = nm → nm ≠ "" → (∀ c ∈ nm.data, c.toNat ≠ 10) →
      vd ≠ [] → (∀ c ∈ vd, isDigitB c = true) →
      cd ≠ [] → (∀ c ∈ cd, isDigitB c = true) →
      (lo = [] ∨ ∃ c, lo = [c] ∧ isLowerB c = true) →
      parseArchiveKey (nm ++ " v" ++ ⟨vd⟩ ++ " c" ++ ⟨cd⟩ ++ ⟨lo⟩ ++ ".cbz")
        = some ⟨nm, Nat.repr (digitsToNat vd), ⟨cd ++ lo⟩⟩)
  ∧ (∀ (ar : List Member) (b : String) (fr : FetchOutcome) (nc : Bool),
      parseArchiveKey b = none →
      update (some ar) b nc fr = some (1, some ar)
    ∧ ∀ rest s outs, mainBatch nc rest = some (s, outs) →
        mainBatch nc (⟨some ar, b, fr⟩ :: rest)
          = some (1 + s, (1, some ar) :: outs)) := by
  refine ⟨by decide, by decide, parse_constructed_name, ?_⟩
  intro ar b fr nc hb
  have hu : update (some ar) b nc fr = some (1, some ar) := by
    simp only [update, hb]
  exact ⟨hu, fun rest s outs hrest =>
    mainBatch_cons nc ⟨some ar, b, fr⟩ rest 1 (some ar) s outs hu hrest⟩

/-- Witness for C8: the general pattern instantiated at
`"Attack Titan" ++ " v" ++ "03" ++ " c" ++ "015" ++ "" ++ ".cbz"`, and a
batch whose first item fails to parse but whose processing continues. -/
theorem archive_key_parsing_spec_witness :
    parseArchiveKey ("Attack Titan" ++ " v" ++ ⟨['0', '3']⟩ ++ " c"
        ++ ⟨['0', '1', '5']⟩ ++ ⟨[]⟩ ++ ".cbz")
      = some ⟨"Attack Titan", Nat.repr (digitsToNat ['0', '3']), ⟨['0', '1', '5'] ++ []⟩⟩
  ∧ mainBatch false [⟨some [], "bad_name.cbz", none⟩]
      = some (1 + 0, (1, some []) :: []) := by
  constructor
  · exact archive_key_parsing_spec.2.2.1 "Attack Titan" ['0', '3'] ['0', '1', '5'] []
      (by decide) (by decide) (by decide) (by decide) (by decide) (by decide)
      (by decide) (Or.inl rfl)
  · exact ((archive_key_parsing_spec.2.2.2 [] "bad_name.cbz" none false
      (by decide)).2 [] 0 [] rfl)

end Manga
